import Mathlib

/-!
Shallow embedding of the riffdiff combinatorial core
(`riffdiff-rust-library/src/lib.rs`): compatibility-tensor construction,
pruned backtracking enumeration, the binary combo writer with side-car
metadata, the memory-mapped combo store, the bounded top-K scorer, and the
CSV score-table loader.  Rust `u32`/`u16`/`usize` values are modelled as
`Nat` with explicit `% 2^16` where the code truncates; `f32` scores are
modelled over `ℚ` (the scoring control flow only adds, divides by `N` and
compares); fallible paths (Rust panics) are modelled as `Option`/explicit
outcome constructors.
-/

namespace RiffDiff

/-- One sparse compatibility assertion (`CompatEntry`, lib.rs lines 12-19):
option `idx1` of set `set1` is compatible with option `idx2` of set `set2`. -/
structure CompatEntry where
  set1 : Nat
  set2 : Nat
  idx1 : Nat
  idx2 : Nat
deriving DecidableEq, Repr

/-- The dense 4-dimensional boolean compatibility structure
(`Vec<Vec<Vec<Vec<bool>>>>` in the source). -/
abbrev Tensor := List (List (List (List Bool)))

/-- Read of `compat_map[i][j][a][b]`.  Out-of-range reads return `false`;
every read the enumerator performs is in range (indices are bounded by the
tensor dimensions), so this matches the source's unchecked indexing there. -/
def tget (t : Tensor) (i j a b : Nat) : Bool :=
  ((((t.getD i []).getD j []).getD a []).getD b false)

/-- The initial all-false tensor
`vec![vec![vec![vec![false; max_set_size]; max_set_size]; n_sets]; n_sets]`
(lib.rs line 92; lines 93-97 re-assign the same inner value and lines
178-184 of the callback variant build the identical tensor). -/
def initTensor (n maxS : Nat) : Tensor :=
  List.replicate n (List.replicate n (List.replicate maxS (List.replicate maxS false)))

/-- The single write `compat_map[i][j][a][b] = true`.  Rust's `IndexMut`
chain checks each indexing level and panics when any is out of range; that
panic is modelled as `none`. -/
def set4 (t : Tensor) (i j a b : Nat) : Option Tensor :=
  match t[i]? with
  | none => none
  | some ti =>
    match ti[j]? with
    | none => none
    | some tij =>
      match tij[a]? with
      | none => none
      | some tija =>
        match tija[b]? with
        | none => none
        | some _ => some (t.set i (ti.set j (tij.set a (tija.set b true))))

/-- Processing of one entry (lib.rs lines 99-108): write the direct cell,
then the symmetric cell. -/
def applyEntry (t : Tensor) (e : CompatEntry) : Option Tensor :=
  (set4 t e.set1 e.set2 e.idx1 e.idx2).bind fun t1 =>
    set4 t1 e.set2 e.set1 e.idx2 e.idx1

/-- Outcome of tensor construction.  The source function has no error
return channel at all: it either produces the tensor or aborts the process
with a Rust index-out-of-bounds panic, modelled by `crash`. -/
inductive BuildOutcome where
  | ok (t : Tensor)
  | crash
deriving DecidableEq, Repr

/-- The `for entry in compat_slice` loop over the entries. -/
def buildLoop : Tensor → List CompatEntry → BuildOutcome
  | t, [] => .ok t
  | t, e :: rest =>
    match applyEntry t e with
    | some t1 => buildLoop t1 rest
    | none => .crash

/-- Tensor construction from the sparse entries, as performed by
`generate_valid_combinations_to_file` (lib.rs lines 89-108) and identically
by `generate_valid_combinations` (lines 175-194). -/
def buildCompatMap (n maxS : Nat) (entries : List CompatEntry) : BuildOutcome :=
  buildLoop (initTensor n maxS) entries

/-- Rust `set_lengths.iter().max().unwrap_or(&0)` (lib.rs line 90). -/
def maxSetSize (setLengths : List Nat) : Nat :=
  setLengths.foldl Nat.max 0

/-- An entry whose four indices address a cell of the `n × n × maxS × maxS`
tensor. -/
def entryInRange (n maxS : Nat) (e : CompatEntry) : Prop :=
  e.set1 < n ∧ e.set2 < n ∧ e.idx1 < maxS ∧ e.idx2 < maxS

instance (n maxS : Nat) (e : CompatEntry) : Decidable (entryInRange n maxS e) := by
  unfold entryInRange; infer_instance

/-- Cell `(i,j,a,b)` is asserted by entry `e`, directly or through the
symmetric write. -/
def entryCovers (e : CompatEntry) (i j a b : Nat) : Prop :=
  (e.set1 = i ∧ e.set2 = j ∧ e.idx1 = a ∧ e.idx2 = b) ∨
  (e.set1 = j ∧ e.set2 = i ∧ e.idx1 = b ∧ e.idx2 = a)

/-- The pruning check of `recurse_write` (lib.rs lines 149-156) and
`backtrack` (lines 219-227): option `idx` at position `depth` must be
compatible with every previously fixed position. -/
def compatCheck (t : Tensor) (depth : Nat) (combo : List Nat) (idx : Nat) : Bool :=
  (List.range depth).all fun p => tget t p depth (combo.getD p 0) idx

/-- The recursive body of `recurse_write` (lib.rs lines 133-163).  The Rust
recursion maintains `depth + fuel = n_sets` and emits when `depth = n_sets`;
the structural `fuel` argument makes that termination explicit.  The emitted
records are collected in depth-first order. -/
def recurseWriteAux (setLengths : List Nat) (t : Tensor) :
    Nat → Nat → List Nat → List (List Nat)
  | 0, _, combo => [combo]
  | fuel + 1, depth, combo =>
    (List.range (setLengths.getD depth 0)).flatMap fun idx =>
      if compatCheck t depth combo idx then
        recurseWriteAux setLengths t fuel (depth + 1) (combo ++ [idx])
      else []

/-- All combinations written by `generate_valid_combinations_to_file` after
the tensor is built (lib.rs lines 117-126): the first position is fanned
out, each branch recursing from depth 1 with `combo = [first_idx]`.  The
parallel fan-out emits the same multiset of records; this sequential model
fixes the deterministic branch order. -/
def emittedCombos (setLengths : List Nat) (t : Tensor) : List (List Nat) :=
  (List.range (setLengths.getD 0 0)).flatMap fun first =>
    recurseWriteAux setLengths t (setLengths.length - 1) 1 [first]

/-- The recursive body of `backtrack` (lib.rs lines 212-234), textually the
same search as `recurse_write` with the emission going to a callback. -/
def backtrackAux (setLengths : List Nat) (t : Tensor) :
    Nat → Nat → List Nat → List (List Nat)
  | 0, _, combo => [combo]
  | fuel + 1, depth, combo =>
    (List.range (setLengths.getD depth 0)).flatMap fun idx =>
      if compatCheck t depth combo idx then
        backtrackAux setLengths t fuel (depth + 1) (combo ++ [idx])
      else []

/-- The sequence of callback invocations of `generate_valid_combinations`
(lib.rs lines 196-209). -/
def callbackCombos (setLengths : List Nat) (t : Tensor) : List (List Nat) :=
  (List.range (setLengths.getD 0 0)).flatMap fun first =>
    backtrackAux setLengths t (setLengths.length - 1) 1 [first]

/-- Brute-force enumeration of every sequence choosing one option index per
position (the reference object for the completeness claim). -/
def allCombos : List Nat → List (List Nat)
  | [] => [[]]
  | n :: rest => (List.range n).flatMap fun i => (allCombos rest).map (i :: ·)

/-- The specification-side validity predicate for a full combination:
correct length, per-position option bounds, and pairwise compatibility for
every pair `p < q` of positions. -/
def isValidCombo (setLengths : List Nat) (t : Tensor) (c : List Nat) : Bool :=
  (c.length = setLengths.length : Bool) &&
  ((List.range c.length).all fun p => c.getD p 0 < setLengths.getD p 0) &&
  ((List.range c.length).all fun q =>
    (List.range q).all fun p => tget t p q (c.getD p 0) (c.getD q 0))

/-- Brute-force filter of all combinations by validity. -/
def bruteForceValid (setLengths : List Nat) (t : Tensor) : List (List Nat) :=
  (allCombos setLengths).filter (isValidCombo setLengths t)

/-- Little-endian serialization of one option index (lib.rs lines 252-254):
`value as u16` truncates modulo 2^16, `to_le_bytes` yields low byte then
high byte. -/
def u16le (v : Nat) : List Nat :=
  [v % 65536 % 256, v % 65536 / 256]

/-- State of a `BinWriter` (lib.rs lines 236-272): the `BufWriter` holds
`buffered` bytes not yet flushed to the combo file, whose durable contents
are `fileBytes`; `line_count` is the tracked row counter. -/
structure BinWriter where
  buffered : List Nat
  fileBytes : List Nat
  line_count : Nat
deriving DecidableEq, Repr

/-- The JSON metadata side-car
`{"rows": <lines>, "cols": <row_len>, "dtype": "u16"}` (lib.rs line 268). -/
structure Metadata where
  rows : Nat
  cols : Nat
  dtype : String
deriving DecidableEq, Repr

/-- A fresh writer on a newly created file (lib.rs lines 242-247). -/
def BinWriter.new : BinWriter :=
  { buffered := [], fileBytes := [], line_count := 0 }

/-- One `write_line` call (lib.rs lines 249-259): each `u32` value is
truncated to `u16` and its two little-endian bytes appended to the buffer;
the line counter is incremented once per call. -/
def BinWriter.write_line (w : BinWriter) (line : List Nat) : BinWriter :=
  { w with
    buffered := w.buffered ++ line.flatMap u16le
    line_count := w.line_count + 1 }

/-- Finalization `close_with_metadata` (lib.rs lines 261-271): read the line counter,
flush the buffer to the file, then produce the metadata record with that
counter as `rows` and `row_len` as `cols`. -/
def BinWriter.close_with_metadata (w : BinWriter) (row_len : Nat) :
    BinWriter × Metadata :=
  let lines := w.line_count
  let flushed : BinWriter :=
    { w with buffered := [], fileBytes := w.fileBytes ++ w.buffered }
  (flushed, { rows := lines, cols := row_len, dtype := "u16" })

/-- A sequence of `write_line` calls starting from a fresh writer. -/
def writeAll (lines : List (List Nat)) : BinWriter :=
  lines.foldl BinWriter.write_line BinWriter.new

/-- Reading the combo file back as `u16` values: `load_u16_mmap`
(lib.rs lines 342-347) reinterprets consecutive byte pairs as
little-endian unsigned 16-bit integers. -/
def decodeU16 : List Nat → List Nat
  | lo :: hi :: rest => (lo + 256 * hi) :: decodeU16 rest
  | _ => []

/-- Store `ValidComboMatrix` (lib.rs lines 278-282): the memory-mapped store of
`n_combos` rows of `n_sets` option indices. -/
structure ValidComboMatrix where
  n_combos : Nat
  n_sets : Nat
  data : List Nat

/-- Accessor `get_combo` (lib.rs lines 285-288): the slice
`data[i*n_sets .. i*n_sets+n_sets]`.  The source's slice indexing panics
out of range; every access made by the library keeps it in range. -/
def ValidComboMatrix.get_combo (m : ValidComboMatrix) (i : Nat) : List Nat :=
  (m.data.drop (i * m.n_sets)).take m.n_sets

/-- Pair `ScoredCombo` (lib.rs lines 290-294) with the `f32` score over `ℚ`. -/
structure ScoredCombo where
  score : ℚ
  index : Nat
deriving DecidableEq, Repr

/-- The mean score of row `i` (lib.rs lines 321-328): sum over positions
`p` of `scores[p][row[p]]`, divided by `n_sets`.  Table lookups are
modelled totally with default `0`; every theorem below only exercises
in-range lookups, matching the source's unchecked indexing. -/
def meanScore (m : ValidComboMatrix) (scores : List (List ℚ)) (i : Nat) : ℚ :=
  (((m.get_combo i).enum.map fun pr =>
      (scores.getD pr.1 []).getD pr.2 0).sum) / (m.n_sets : ℚ)

/-- The `BinaryHeap<ScoredCombo>` with the reversed `Ord` of lib.rs lines
304-309 is a min-heap on the score; it is modelled as a list kept sorted by
ascending score, so `push` is ordered insertion. -/
def heapPush : List ScoredCombo → ScoredCombo → List ScoredCombo
  | [], x => [x]
  | y :: ys, x => if x.score ≤ y.score then x :: y :: ys else y :: heapPush ys x

/-- One iteration of the scoring loop body (lib.rs lines 330-336) on row
`i`: push unconditionally while the heap holds fewer than `top_n` entries;
otherwise compare against `peek()` — the minimum-score entry, the head of
the sorted list — and pop-push only on a strictly greater score.
`peek().unwrap()` on an empty heap is a Rust panic, modelled as `none`. -/
def topKStep (m : ValidComboMatrix) (scores : List (List ℚ)) (top_n : Nat)
    (h : List ScoredCombo) (i : Nat) : Option (List ScoredCombo) :=
  let avg := meanScore m scores i
  if h.length < top_n then some (heapPush h { score := avg, index := i })
  else
    match h with
    | [] => none
    | m0 :: rest =>
      if m0.score < avg then some (heapPush rest { score := avg, index := i })
      else some (m0 :: rest)

/-- The shared heap after the first `k` rows have been processed (the
sequential schedule of the `par_iter` over `0..n_combos`; the heap updates
are serialized by the mutex in the source). -/
def heapAfter (m : ValidComboMatrix) (scores : List (List ℚ))
    (top_n k : Nat) : Option (List ScoredCombo) :=
  (List.range k).foldlM (topKStep m scores top_n) []

/-- Scoring `score_combinations` (lib.rs lines 313-340): fold the scoring step over
all rows, then `into_sorted_vec`, which under the reversed `Ord` lists
entries by descending score — the reverse of the ascending-sorted heap
list. -/
def score_combinations (m : ValidComboMatrix) (scores : List (List ℚ))
    (top_n : Nat) : Option (List ScoredCombo) :=
  (heapAfter m scores top_n m.n_combos).map List.reverse

/-- The pure core of `find_top_combos` (lib.rs lines 21-68): build the
store from the combo data, score, and flatten the winning rows in order
(the numpy reshape to `(len, n_sets)` is the identity on this flat list).
No check compares `scoreTables.length` with `n_sets`. -/
def find_top_combos (comboData : List Nat) (scoreTables : List (List ℚ))
    (n_combos n_sets top_n : Nat) : Option (List Nat) :=
  let combos : ValidComboMatrix :=
    { n_combos := n_combos, n_sets := n_sets, data := comboData }
  (score_combinations combos scoreTables top_n).map fun best =>
    best.flatMap fun sc => combos.get_combo sc.index

/-- One CSV field as seen by the score loader: either it parses as a
number or it is raw unparseable text (`score_str.parse()` failure). -/
inductive Cell where
  | num (q : ℚ)
  | raw (s : String)
deriving DecidableEq, Repr

/-- The record loop of `load_f32_score_array_from_csv` (lib.rs lines
363-370) over the data records (header already consumed), with `i` the
0-based enumeration index of the current record.  `record.get(28)` missing
or unparseable aborts the whole load with a message naming `i + 1`. -/
def loadRows : List (List Cell) → Nat → Except String (List ℚ)
  | [], _ => .ok []
  | r :: rest, i =>
    match r[28]? with
    | none => .error ("Missing score in column 28 at line " ++ toString (i + 1))
    | some (Cell.raw s) =>
      .error ("Invalid score " ++ s ++ " at line " ++ toString (i + 1))
    | some (Cell.num q) => (loadRows rest (i + 1)).map fun qs => q :: qs

/-- Loader `load_f32_score_array_from_csv` (lib.rs lines 353-373): the reader is
built with `has_headers(true)`, so the first row of the file is consumed as
the header and the record loop runs over the remaining rows with
enumeration starting at 0. -/
def load_f32_score_array_from_csv (file : List (List Cell)) :
    Except String (List ℚ) :=
  loadRows (file.drop 1) 0

/-! Helper lemmas about `List.getD` used throughout. -/

lemma getD_take_of_lt {α : Type} (l : List α) (n p : Nat) (d : α) (h : p < n) :
    (l.take n).getD p d = l.getD p d := by
  simp [List.getD_eq_getElem?_getD, List.getElem?_take_of_lt h]

lemma getD_append_left {α : Type} (l1 l2 : List α) (p : Nat) (d : α)
    (h : p < l1.length) : (l1 ++ l2).getD p d = l1.getD p d := by
  simp [List.getD_eq_getElem?_getD, List.getElem?_append_left h]

lemma getD_concat_length {α : Type} (l : List α) (a : α) (d : α) :
    (l ++ [a]).getD l.length d = a := by
  simp [List.getD_eq_getElem?_getD]

lemma take_succ_getD {α : Type} (l : List α) (n : Nat) (d : α)
    (h : n < l.length) : l.take (n + 1) = l.take n ++ [l.getD n d] := by
  rw [List.take_succ]
  congr 1
  rw [List.getElem?_eq_getElem h]
  simp [List.getD_eq_getElem?_getD, List.getElem?_eq_getElem h]

lemma getD_eq_of_take_eq {α : Type} {l c : List α} {n p : Nat} (d : α)
    (h : l.take n = c) (hp : p < n) : l.getD p d = c.getD p d := by
  rw [← h, getD_take_of_lt _ _ _ _ hp]

/-! BinWriter lemmas (claims C4 and C5). -/

lemma foldl_write_line (lines : List (List Nat)) : ∀ (w : BinWriter),
    lines.foldl BinWriter.write_line w =
      { buffered := w.buffered ++ lines.flatMap (fun l => l.flatMap u16le)
        fileBytes := w.fileBytes
        line_count := w.line_count + lines.length } := by
  induction lines with
  | nil => intro w; simp
  | cons l rest ih =>
    intro w
    simp only [List.foldl_cons, ih, BinWriter.write_line, List.flatMap_cons,
      List.length_cons]
    rw [List.append_assoc]
    congr 1
    omega

lemma writeAll_spec (lines : List (List Nat)) :
    writeAll lines =
      { buffered := lines.flatMap (fun l => l.flatMap u16le)
        fileBytes := []
        line_count := lines.length } := by
  simp [writeAll, foldl_write_line, BinWriter.new]

lemma u16le_length (v : Nat) : (u16le v).length = 2 := rfl

lemma decodeU16_u16le (v : Nat) (rest : List Nat) :
    decodeU16 (u16le v ++ rest) = v % 65536 :: decodeU16 rest := by
  simp only [u16le, List.cons_append, List.nil_append, decodeU16]
  congr 1
  have := Nat.mod_add_div (v % 65536) 256
  omega

lemma decodeU16_line (line : List Nat) : ∀ (rest : List Nat),
    decodeU16 (line.flatMap u16le ++ rest) =
      line.map (· % 65536) ++ decodeU16 rest := by
  induction line with
  | nil => intro rest; simp
  | cons v vs ih =>
    intro rest
    simp only [List.flatMap_cons, List.map_cons, List.append_assoc,
      List.cons_append]
    rw [decodeU16_u16le, ih]

lemma decodeU16_lines (lines : List (List Nat)) :
    decodeU16 (lines.flatMap (fun l => l.flatMap u16le)) =
      lines.flatMap (fun l => l.map (· % 65536)) := by
  induction lines with
  | nil => rfl
  | cons l rest ih =>
    simp only [List.flatMap_cons]
    rw [decodeU16_line, ih]

lemma flatten_drop_take {α : Type} (N : Nat) :
    ∀ (lines : List (List α)) (i : Nat), (∀ l ∈ lines, l.length = N) →
      i < lines.length →
      ((lines.flatMap id).drop (i * N)).take N = lines.getD i [] := by
  intro lines
  induction lines with
  | nil => intro i _ hi; simp at hi
  | cons l rest ih =>
    intro i hlen hi
    match i with
    | 0 =>
      simp only [Nat.zero_mul, List.drop_zero, List.flatMap_cons, id_eq,
        List.getD_eq_getElem?_getD, List.getElem?_cons_zero, Option.getD_some]
      exact List.take_left' (hlen l (by simp))
    | i + 1 =>
      have hl : l.length = N := hlen l (by simp)
      simp only [List.flatMap_cons, id_eq, List.getD_eq_getElem?_getD,
        List.getElem?_cons_succ]
      rw [Nat.succ_mul, Nat.add_comm (i * N) N, ← List.drop_drop,
        List.drop_left' hl]
      have := ih i (fun x hx => hlen x (by simp [hx])) (by simpa using hi)
      simpa [List.getD_eq_getElem?_getD] using this

/-- C4: the row count recorded in the metadata side-car equals the number
of records written through `BinWriter.write_line`; each `write_line` call
increments the tracked line count by exactly one; `close_with_metadata`
records that count as `rows` and the supplied column count as `cols`, and
the metadata is produced only on the flushed writer state, in which no
combination bytes remain buffered and every written byte is in the combo
file. -/
theorem binWriter_metadata_row_count :
    ∀ (w : BinWriter) (line : List Nat) (lines : List (List Nat)) (n : Nat),
      (w.write_line line).line_count = w.line_count + 1 ∧
      ((writeAll lines).close_with_metadata n).2.rows = lines.length ∧
      ((writeAll lines).close_with_metadata n).2.cols = n ∧
      ((writeAll lines).close_with_metadata n).1.buffered = [] ∧
      ((writeAll lines).close_with_metadata n).1.fileBytes =
        lines.flatMap (fun l => l.flatMap u16le) := by
  intro w line lines n
  refine ⟨rfl, ?_, rfl, rfl, ?_⟩ <;>
    simp [writeAll_spec, BinWriter.close_with_metadata]

/-- C5: `write_line` serializes each option index as its value modulo
2^16 in two little-endian bytes, rows concatenated with no header or
padding, so after writing `R` rows of `N` values the flushed combo file
holds exactly `R * N * 2` bytes; and any value below 65536 round-trips
unchanged through the memory-mapped store (`decodeU16` + `get_combo`). -/
theorem binWriter_layout_roundtrip (lines : List (List Nat)) (N : Nat)
    (hlen : ∀ l ∈ lines, l.length = N)
    (hval : ∀ l ∈ lines, ∀ v ∈ l, v < 65536) :
    ((writeAll lines).close_with_metadata N).1.fileBytes.length =
        lines.length * N * 2 ∧
    ∀ i < lines.length,
      (ValidComboMatrix.mk lines.length N
          (decodeU16 ((writeAll lines).close_with_metadata N).1.fileBytes)).get_combo
          i = lines.getD i [] := by
  have hbytes : ((writeAll lines).close_with_metadata N).1.fileBytes =
      lines.flatMap (fun l => l.flatMap u16le) := by
    simp [writeAll_spec, BinWriter.close_with_metadata]
  have hmap : lines.flatMap (fun l => l.map (· % 65536)) = lines.flatMap id := by
    clear hlen hbytes
    induction lines with
    | nil => rfl
    | cons l rest ih =>
      simp only [List.flatMap_cons, id_eq]
      rw [ih (fun x hx v hv => hval x (by simp [hx]) v hv)]
      congr 1
      have : ∀ v ∈ l, v % 65536 = v := fun v hv =>
        Nat.mod_eq_of_lt (hval l (by simp) v hv)
      calc l.map (· % 65536) = l.map id := List.map_congr_left this
        _ = l := List.map_id l
  have hlenBytes : (lines.flatMap (fun l => l.flatMap u16le)).length =
      lines.length * N * 2 := by
    clear hval hbytes hmap
    induction lines with
    | nil => simp
    | cons l rest ih =>
      simp only [List.flatMap_cons, List.length_append, List.length_cons]
      rw [ih (fun x hx => hlen x (by simp [hx]))]
      have h2 : (l.flatMap u16le).length = 2 * l.length := by
        clear hlen ih
        induction l with
        | nil => rfl
        | cons v vs ihv =>
          simp only [List.flatMap_cons, List.length_append, List.length_cons]
          rw [ihv]
          simp [u16le_length]
          omega
      rw [h2, hlen l (by simp)]
      ring
  refine ⟨by rw [hbytes]; exact hlenBytes, ?_⟩
  intro i hi
  rw [hbytes, decodeU16_lines, hmap]
  simpa [ValidComboMatrix.get_combo] using flatten_drop_take N lines i hlen hi

/-- Witness for the layout/round-trip theorem at two concrete rows of two
values each, one value exercising the top of the 16-bit range. -/
theorem binWriter_layout_roundtrip_witness :
    (∀ l ∈ ([[0, 1], [65535, 3]] : List (List Nat)), l.length = 2) ∧
    (∀ l ∈ ([[0, 1], [65535, 3]] : List (List Nat)), ∀ v ∈ l, v < 65536) ∧
    (((writeAll [[0, 1], [65535, 3]]).close_with_metadata 2).1.fileBytes.length =
        2 * 2 * 2 ∧
      ∀ i < 2,
        (ValidComboMatrix.mk 2 2
            (decodeU16
              ((writeAll [[0, 1], [65535, 3]]).close_with_metadata 2).1.fileBytes)).get_combo
            i = ([[0, 1], [65535, 3]] : List (List Nat)).getD i []) :=
  ⟨by decide, by decide,
    by
      have h := binWriter_layout_roundtrip [[0, 1], [65535, 3]] 2
        (by decide) (by decide)
      simpa using h⟩

/-! Score-table CSV lemmas (claim C9). -/

/-- Column 28 of a record parses as a number. -/
def numAt28 (r : List Cell) : Bool :=
  match r[28]? with
  | some (Cell.num _) => true
  | _ => false

lemma numAt28_spec (r : List Cell) (h : numAt28 r = true) :
    ∃ q, r[28]? = some (Cell.num q) := by
  unfold numAt28 at h
  match hr : r[28]? with
  | some (Cell.num q) => exact ⟨q, rfl⟩
  | some (Cell.raw s) => rw [hr] at h; simp at h
  | none => rw [hr] at h; simp at h

lemma loadRows_first_bad : ∀ (rows : List (List Cell)) (i k : Nat),
    k < rows.length → (∀ j < k, numAt28 (rows.getD j []) = true) →
    ((rows.getD k [])[28]? = none →
      loadRows rows i =
        .error ("Missing score in column 28 at line " ++ toString (i + k + 1))) ∧
    (∀ s, (rows.getD k [])[28]? = some (Cell.raw s) →
      loadRows rows i =
        .error ("Invalid score " ++ s ++ " at line " ++ toString (i + k + 1))) := by
  intro rows
  induction rows with
  | nil => intro i k hk _; simp at hk
  | cons r rest ih =>
    intro i k hk hgood
    match k with
    | 0 =>
      constructor
      · intro hnone
        simp only [List.getD_cons_zero] at hnone
        simp [loadRows, hnone]
      · intro s hraw
        simp only [List.getD_cons_zero] at hraw
        simp [loadRows, hraw]
    | k + 1 =>
      have h0 : numAt28 r = true := by
        have := hgood 0 (Nat.succ_pos k)
        simpa using this
      obtain ⟨q, hq⟩ := numAt28_spec r h0
      have hrec := ih (i + 1) k (by simpa using hk)
        (fun j hj => by
          have := hgood (j + 1) (by omega)
          simpa using this)
      have harith : i + 1 + k + 1 = i + (k + 1) + 1 := by omega
      constructor
      · intro hnone
        simp only [List.getD_cons_succ] at hnone
        have := hrec.1 hnone
        simp [loadRows, hq, this, harith, Except.map]
      · intro s hraw
        simp only [List.getD_cons_succ] at hraw
        have := hrec.2 s hraw
        simp [loadRows, hq, this, harith, Except.map]

lemma loadRows_all_good : ∀ (rows : List (List Cell)) (i : Nat),
    (∀ j < rows.length, numAt28 (rows.getD j []) = true) →
    ∃ qs, loadRows rows i = .ok qs ∧ qs.length = rows.length ∧
      ∀ j < rows.length, (rows.getD j [])[28]? = some (Cell.num (qs.getD j 0)) := by
  intro rows
  induction rows with
  | nil => intro i _; exact ⟨[], rfl, rfl, by intro j hj; simp at hj⟩
  | cons r rest ih =>
    intro i hgood
    have h0 : numAt28 r = true := by
      have := hgood 0 (Nat.succ_pos _)
      simpa using this
    obtain ⟨q, hq⟩ := numAt28_spec r h0
    obtain ⟨qs, hqs, hlen, hcol⟩ := ih (i + 1)
      (fun j hj => by
        have := hgood (j + 1) (by simpa using Nat.succ_lt_succ hj)
        simpa using this)
    refine ⟨q :: qs, ?_, by simp [hlen], ?_⟩
    · simp [loadRows, hq, hqs, Except.map]
    · intro j hj
      match j with
      | 0 => simpa using hq
      | j + 1 =>
        have := hcol j (by simpa using hj)
        simpa using this

/-- C9 counterexample: the offending data row of this two-line file sits at
1-based source line 2 (the header occupies line 1), yet the error message
emitted by the loader names line 1. -/
theorem load_csv_line_number_counterexample :
    load_f32_score_array_from_csv
        [[], List.replicate 28 (Cell.num 0) ++ [Cell.raw "bad"]] =
      Except.error "Invalid score bad at line 1" ∧
    "Invalid score bad at line 1" ≠ "Invalid score bad at line 2" := by
  constructor
  · rfl
  · decide

/-- C9 amended: the loader consumes exactly one header row and reads fixed
column index 28 of every remaining row; the first row whose column 28 is
missing or non-numeric aborts the whole load with an error naming the
1-based data-row ordinal `k+1` (one less than the physical source line
number `k+2`, since the header line is not counted); when every row is
numeric at column 28 the whole table loads in row order. -/
theorem load_csv_column28_abort (header : List Cell) (rows : List (List Cell))
    (k : Nat) (hk : k < rows.length)
    (hgood : ∀ j < k, numAt28 (rows.getD j []) = true) :
    load_f32_score_array_from_csv (header :: rows) = loadRows rows 0 ∧
    ((rows.getD k [])[28]? = none →
      load_f32_score_array_from_csv (header :: rows) =
        .error ("Missing score in column 28 at line " ++ toString (k + 1))) ∧
    (∀ s, (rows.getD k [])[28]? = some (Cell.raw s) →
      load_f32_score_array_from_csv (header :: rows) =
        .error ("Invalid score " ++ s ++ " at line " ++ toString (k + 1))) ∧
    ((∀ j < rows.length, numAt28 (rows.getD j []) = true) →
      ∃ qs, load_f32_score_array_from_csv (header :: rows) = .ok qs ∧
        qs.length = rows.length ∧
        ∀ j < rows.length, (rows.getD j [])[28]? = some (Cell.num (qs.getD j 0))) := by
  have hdrop : load_f32_score_array_from_csv (header :: rows) = loadRows rows 0 :=
    rfl
  have hbad := loadRows_first_bad rows 0 k hk hgood
  refine ⟨hdrop, ?_, ?_, ?_⟩
  · intro hnone
    rw [hdrop]
    simpa using hbad.1 hnone
  · intro s hraw
    rw [hdrop]
    simpa using hbad.2 s hraw
  · intro hall
    rw [hdrop]
    exact loadRows_all_good rows 0 hall

/-- Witness for the amended CSV theorem: a file whose second data row has
raw text in column 28; the load aborts naming data-row ordinal 2. -/
theorem load_csv_column28_abort_witness :
    (1 < ([List.replicate 29 (Cell.num 5),
            List.replicate 28 (Cell.num 0) ++ [Cell.raw "oops"]] :
          List (List Cell)).length) ∧
    load_f32_score_array_from_csv
        ([] :: [List.replicate 29 (Cell.num 5),
          List.replicate 28 (Cell.num 0) ++ [Cell.raw "oops"]]) =
      .error ("Invalid score oops at line " ++ toString (1 + 1)) := by
  refine ⟨by decide, ?_⟩
  have h := load_csv_column28_abort []
    [List.replicate 29 (Cell.num 5),
      List.replicate 28 (Cell.num 0) ++ [Cell.raw "oops"]] 1
    (by decide) (by decide)
  exact h.2.2.1 "oops" (by decide)

/-! Top-K scoring lemmas (claims C3, C8, C10). -/

/-- The heap order on scored combinations: ascending score (the reversed
Rust `Ord` makes the `BinaryHeap` a min-heap on score). -/
def scoreLE (a b : ScoredCombo) : Prop := a.score ≤ b.score

lemma heapPush_perm (x : ScoredCombo) : ∀ (h : List ScoredCombo),
    (heapPush h x).Perm (x :: h) := by
  intro h
  induction h with
  | nil => simp [heapPush]
  | cons y ys ih =>
    by_cases hc : x.score ≤ y.score
    · simp [heapPush, hc]
    · simp only [heapPush, hc, if_false]
      exact (ih.cons y).trans (List.Perm.swap x y ys)

lemma heapPush_length (x : ScoredCombo) (h : List ScoredCombo) :
    (heapPush h x).length = h.length + 1 := by
  simpa using (heapPush_perm x h).length_eq

lemma mem_heapPush {x y : ScoredCombo} {h : List ScoredCombo} :
    y ∈ heapPush h x ↔ y = x ∨ y ∈ h := by
  rw [(heapPush_perm x h).mem_iff]
  simp

lemma heapPush_sorted (x : ScoredCombo) : ∀ (h : List ScoredCombo),
    List.Sorted scoreLE h → List.Sorted scoreLE (heapPush h x) := by
  intro h
  induction h with
  | nil => intro _; simp [heapPush, List.Sorted]
  | cons y ys ih =>
    intro hs
    rw [List.sorted_cons] at hs
    obtain ⟨hy, hys⟩ := hs
    by_cases hc : x.score ≤ y.score
    · simp only [heapPush, hc, if_true]
      rw [List.sorted_cons]
      refine ⟨?_, by rw [List.sorted_cons]; exact ⟨hy, hys⟩⟩
      intro z hz
      rcases List.mem_cons.mp hz with rfl | hz2
      · exact hc
      · exact le_trans hc (hy z hz2)
    · simp only [heapPush, hc, if_false]
      rw [List.sorted_cons]
      refine ⟨?_, ih hys⟩
      intro z hz
      rcases mem_heapPush.mp hz with rfl | hz2
      · exact le_of_lt (lt_of_not_le hc)
      · exact hy z hz2

/-- Invariant of the shared bounded heap after the first `k` rows: sorted
ascending by score, holding `min top_n k` entries whose indices are
distinct processed rows scored by `meanScore`. -/
def topKInv (m : ValidComboMatrix) (scores : List (List ℚ)) (top_n k : Nat)
    (h : List ScoredCombo) : Prop :=
  List.Sorted scoreLE h ∧ h.length = min top_n k ∧
  (∀ x ∈ h, x.index < k ∧ x.score = meanScore m scores x.index) ∧
  (h.map ScoredCombo.index).Nodup

lemma topKStep_length_le {m : ValidComboMatrix} {scores : List (List ℚ)}
    {top_n : Nat} {h h' : List ScoredCombo} {i : Nat}
    (hle : h.length ≤ top_n)
    (hstep : topKStep m scores top_n h i = some h') : h'.length ≤ top_n := by
  unfold topKStep at hstep
  by_cases hlt : h.length < top_n
  · simp only [hlt, if_true, Option.some.injEq] at hstep
    rw [← hstep, heapPush_length]
    omega
  · simp only [hlt, if_false] at hstep
    match h, hstep with
    | m0 :: rest, hstep =>
      by_cases hcmp : m0.score < meanScore m scores i
      · simp only [hcmp, if_true, Option.some.injEq] at hstep
        rw [← hstep, heapPush_length]
        simpa using hle
      · simp only [hcmp, if_false, Option.some.injEq] at hstep
        rw [← hstep]
        exact hle

lemma topKStep_inv {m : ValidComboMatrix} {scores : List (List ℚ)}
    {top_n k : Nat} {h : List ScoredCombo} (htop : 1 ≤ top_n)
    (hInv : topKInv m scores top_n k h) :
    ∃ h', topKStep m scores top_n h k = some h' ∧
      topKInv m scores top_n (k + 1) h' := by
  obtain ⟨hs, hl, hmem, hnd⟩ := hInv
  set avg := meanScore m scores k with havg
  by_cases hlt : h.length < top_n
  · refine ⟨heapPush h { score := avg, index := k }, by simp [topKStep, hlt], ?_, ?_, ?_, ?_⟩
    · exact heapPush_sorted _ h hs
    · rw [heapPush_length]; omega
    · intro x hx
      rcases mem_heapPush.mp hx with rfl | hx2
      · exact ⟨Nat.lt_succ_self k, havg⟩
      · obtain ⟨h1, h2⟩ := hmem x hx2
        exact ⟨Nat.lt_succ_of_lt h1, h2⟩
    · have hperm : (heapPush h { score := avg, index := k }).map ScoredCombo.index
          |>.Perm (k :: h.map ScoredCombo.index) := by
        simpa using (heapPush_perm { score := avg, index := k } h).map ScoredCombo.index
      refine hperm.nodup_iff.mpr ?_
      rw [List.nodup_cons]
      refine ⟨?_, hnd⟩
      intro hk
      obtain ⟨x, hx, hxi⟩ := List.mem_map.mp hk
      exact absurd (hxi ▸ (hmem x hx).1) (Nat.lt_irrefl k)
  · have hlen : h.length = top_n := by omega
    match h with
    | [] => simp only [List.length_nil] at hlen; omega
    | m0 :: rest =>
      rw [List.sorted_cons] at hs
      obtain ⟨hm0, hrest⟩ := hs
      have htopk : top_n ≤ k := by
        by_contra hc
        have : min top_n k = k := by omega
        rw [this] at hl
        simp only [List.length_cons] at hlen hl
        omega
      by_cases hcmp : m0.score < avg
      · refine ⟨heapPush rest { score := avg, index := k },
          by
            simp only [topKStep]
            rw [if_neg hlt]
            simp [hcmp], ?_, ?_, ?_, ?_⟩
        · exact heapPush_sorted _ rest hrest
        · rw [heapPush_length]
          simp only [List.length_cons] at hlen
          omega
        · intro x hx
          rcases mem_heapPush.mp hx with rfl | hx2
          · exact ⟨Nat.lt_succ_self k, havg⟩
          · obtain ⟨h1, h2⟩ := hmem x (List.mem_cons_of_mem m0 hx2)
            exact ⟨Nat.lt_succ_of_lt h1, h2⟩
        · have hperm : (heapPush rest { score := avg, index := k }).map ScoredCombo.index
              |>.Perm (k :: rest.map ScoredCombo.index) := by
            simpa using (heapPush_perm { score := avg, index := k } rest).map ScoredCombo.index
          refine hperm.nodup_iff.mpr ?_
          rw [List.nodup_cons]
          refine ⟨?_, (List.nodup_cons.mp (by simpa using hnd)).2⟩
          intro hk2
          obtain ⟨x, hx, hxi⟩ := List.mem_map.mp hk2
          exact absurd (hxi ▸ (hmem x (List.mem_cons_of_mem m0 hx)).1)
            (Nat.lt_irrefl k)
      · refine ⟨m0 :: rest,
          by
            simp only [topKStep]
            rw [if_neg hlt]
            simp [hcmp], ?_, ?_, ?_, hnd⟩
        · rw [List.sorted_cons]; exact ⟨hm0, hrest⟩
        · simp only [List.length_cons] at hlen ⊢
          omega
        · intro x hx
          obtain ⟨h1, h2⟩ := hmem x hx
          exact ⟨Nat.lt_succ_of_lt h1, h2⟩

lemma heapAfter_zero (m : ValidComboMatrix) (scores : List (List ℚ))
    (top_n : Nat) : heapAfter m scores top_n 0 = some [] := rfl

lemma heapAfter_succ (m : ValidComboMatrix) (scores : List (List ℚ))
    (top_n k : Nat) :
    heapAfter m scores top_n (k + 1) =
      (heapAfter m scores top_n k).bind
        (fun h => topKStep m scores top_n h k) := by
  unfold heapAfter
  rw [List.range_succ, List.foldlM_append]
  simp

lemma heapAfter_inv (m : ValidComboMatrix) (scores : List (List ℚ))
    (top_n : Nat) (htop : 1 ≤ top_n) : ∀ k,
    ∃ h, heapAfter m scores top_n k = some h ∧ topKInv m scores top_n k h := by
  intro k
  induction k with
  | zero =>
    refine ⟨[], rfl, List.sorted_nil, by simp, ?_, by simp⟩
    intro x hx
    simp at hx
  | succ k ih =>
    obtain ⟨h, hh, hinv⟩ := ih
    obtain ⟨h', hstep, hinv'⟩ := topKStep_inv htop hinv
    exact ⟨h', by rw [heapAfter_succ, hh]; exact hstep, hinv'⟩

lemma heapAfter_length_le (m : ValidComboMatrix) (scores : List (List ℚ))
    (top_n : Nat) : ∀ k h, heapAfter m scores top_n k = some h →
      h.length ≤ top_n := by
  intro k
  induction k with
  | zero =>
    intro h hh
    rw [heapAfter_zero] at hh
    injection hh with hh2
    simp [← hh2]
  | succ k ih =>
    intro h hh
    rw [heapAfter_succ] at hh
    obtain ⟨h0, hh0, hstep⟩ := Option.bind_eq_some.mp hh
    exact topKStep_length_le (ih h0 hh0) hstep

lemma mem_of_nodup_length (l : List Nat) (n : Nat) (hnd : l.Nodup)
    (hlen : l.length = n) (hlt : ∀ x ∈ l, x < n) : ∀ i < n, i ∈ l := by
  intro i hi
  have hsub : l.toFinset ⊆ Finset.range n := by
    intro x hx
    exact Finset.mem_range.mpr (hlt x (List.mem_toFinset.mp hx))
  have hcard : (Finset.range n).card ≤ l.toFinset.card := by
    rw [Finset.card_range, List.toFinset_card_of_nodup hnd, hlen]
  have heq := Finset.eq_of_subset_of_card_le hsub hcard
  have : i ∈ l.toFinset := heq ▸ Finset.mem_range.mpr hi
  exact List.mem_toFinset.mp this

/-! Compatibility-tensor construction lemmas (claims C6 and C7). -/

lemma getD_of_getElem? {α : Type} {l : List α} {i : Nat} {x : α} (d : α)
    (h : l[i]? = some x) : l.getD i d = x := by
  simp [List.getD_eq_getElem?_getD, h]

lemma lt_length_of_getElem? {α : Type} {l : List α} {i : Nat} {x : α}
    (h : l[i]? = some x) : i < l.length := by
  by_contra hc
  rw [List.getElem?_eq_none (by omega)] at h
  exact Option.noConfusion h

lemma getD_set_self {α : Type} (l : List α) (i : Nat) (x d : α)
    (h : i < l.length) : (l.set i x).getD i d = x := by
  simp [List.getD_eq_getElem?_getD, List.getElem?_set, h]

lemma getD_set_ne {α : Type} (l : List α) {i j : Nat} (x d : α) (h : i ≠ j) :
    (l.set i x).getD j d = l.getD j d := by
  simp [List.getD_eq_getElem?_getD, List.getElem?_set, h]

/-- Shape of a well-formed `n × n × maxS × maxS` tensor. -/
def wfTensor (t : Tensor) (n maxS : Nat) : Prop :=
  t.length = n ∧ ∀ ti ∈ t, ti.length = n ∧ ∀ tij ∈ ti,
    tij.length = maxS ∧ ∀ tija ∈ tij, tija.length = maxS

lemma wfTensor_init (n maxS : Nat) : wfTensor (initTensor n maxS) n maxS := by
  refine ⟨List.length_replicate n _, ?_⟩
  intro ti hti
  rw [List.eq_of_mem_replicate hti]
  refine ⟨List.length_replicate n _, ?_⟩
  intro tij htij
  rw [List.eq_of_mem_replicate htij]
  refine ⟨List.length_replicate maxS _, ?_⟩
  intro tija htija
  rw [List.eq_of_mem_replicate htija]
  exact List.length_replicate maxS _

lemma set4_eq_some {t t' : Tensor} {i j a b : Nat}
    (hs : set4 t i j a b = some t') :
    ∃ ti tij tija, t[i]? = some ti ∧ ti[j]? = some tij ∧
      tij[a]? = some tija ∧ b < tija.length ∧
      t' = t.set i (ti.set j (tij.set a (tija.set b true))) := by
  unfold set4 at hs
  split at hs
  · exact absurd hs (by simp)
  next ti hti =>
  split at hs
  · exact absurd hs (by simp)
  next tij htij =>
  split at hs
  · exact absurd hs (by simp)
  next tija htija =>
  split at hs
  · exact absurd hs (by simp)
  next v hv =>
  injection hs with hs
  exact ⟨ti, tij, tija, hti, htij, htija, lt_length_of_getElem? hv, hs.symm⟩

lemma set4_isSome {t : Tensor} {n maxS : Nat} (hwf : wfTensor t n maxS)
    {i j a b : Nat} (hi : i < n) (hj : j < n) (ha : a < maxS) (hb : b < maxS) :
    ∃ t', set4 t i j a b = some t' := by
  obtain ⟨hlen, hmem⟩ := hwf
  have hi' : i < t.length := by omega
  have h1 : t[i]? = some t[i] := List.getElem?_eq_getElem hi'
  obtain ⟨hleni, hmemi⟩ := hmem t[i] (List.getElem_mem hi')
  have hj' : j < t[i].length := by omega
  have h2 : t[i][j]? = some t[i][j] := List.getElem?_eq_getElem hj'
  obtain ⟨hlenj, hmemj⟩ := hmemi t[i][j] (List.getElem_mem hj')
  have ha' : a < t[i][j].length := by omega
  have h3 : t[i][j][a]? = some t[i][j][a] := List.getElem?_eq_getElem ha'
  have hlenb := hmemj t[i][j][a] (List.getElem_mem ha')
  have hb' : b < t[i][j][a].length := by omega
  have h4 : t[i][j][a][b]? = some t[i][j][a][b] := List.getElem?_eq_getElem hb'
  refine ⟨t.set i (t[i].set j (t[i][j].set a (t[i][j][a].set b true))), ?_⟩
  unfold set4
  simp only [h1, h2, h3, h4]

lemma set4_none {t : Tensor} {n maxS : Nat} (hwf : wfTensor t n maxS)
    {i j a b : Nat} (hout : ¬(i < n ∧ j < n ∧ a < maxS ∧ b < maxS)) :
    set4 t i j a b = none := by
  obtain ⟨hlen, hmem⟩ := hwf
  unfold set4
  split
  · rfl
  next ti hti =>
  have hi : i < n := by have := lt_length_of_getElem? hti; omega
  obtain ⟨hleni, hmemi⟩ := hmem ti (List.getElem?_mem hti)
  split
  · rfl
  next tij htij =>
  have hj : j < n := by have := lt_length_of_getElem? htij; omega
  obtain ⟨hlenj, hmemj⟩ := hmemi tij (List.getElem?_mem htij)
  split
  · rfl
  next tija htija =>
  have ha : a < maxS := by have := lt_length_of_getElem? htija; omega
  have hlenb := hmemj tija (List.getElem?_mem htija)
  split
  · rfl
  next v htijab =>
  have hb : b < maxS := by have := lt_length_of_getElem? htijab; omega
  exact absurd ⟨hi, hj, ha, hb⟩ hout

lemma wfTensor_set4 {t t' : Tensor} {n maxS : Nat} (hwf : wfTensor t n maxS)
    {i j a b : Nat} (hs : set4 t i j a b = some t') : wfTensor t' n maxS := by
  obtain ⟨ti, tij, tija, hti, htij, htija, hb, rfl⟩ := set4_eq_some hs
  obtain ⟨hlen, hmem⟩ := hwf
  obtain ⟨hleni, hmemi⟩ := hmem ti (List.getElem?_mem hti)
  obtain ⟨hlenj, hmemj⟩ := hmemi tij (List.getElem?_mem htij)
  have hlenb := hmemj tija (List.getElem?_mem htija)
  refine ⟨by simpa using hlen, ?_⟩
  intro ti' hti'
  rcases List.mem_or_eq_of_mem_set hti' with hmem' | rfl
  · exact hmem ti' hmem'
  refine ⟨by simpa using hleni, ?_⟩
  intro tij' htij'
  rcases List.mem_or_eq_of_mem_set htij' with hmem' | rfl
  · exact hmemi tij' hmem'
  refine ⟨by simpa using hlenj, ?_⟩
  intro tija' htija'
  rcases List.mem_or_eq_of_mem_set htija' with hmem' | rfl
  · exact hmemj tija' hmem'
  simpa using hlenb

lemma tget_set4 {t t' : Tensor} {i j a b : Nat}
    (hs : set4 t i j a b = some t') (i' j' a' b' : Nat) :
    tget t' i' j' a' b' =
      if i = i' ∧ j = j' ∧ a = a' ∧ b = b' then true
      else tget t i' j' a' b' := by
  obtain ⟨ti, tij, tija, hti, htij, htija, hb, rfl⟩ := set4_eq_some hs
  by_cases hii : i = i'
  case neg =>
    rw [if_neg (by tauto)]
    unfold tget
    rw [getD_set_ne _ _ _ hii]
  subst hii
  have hilen := lt_length_of_getElem? hti
  have h0 : (t.set i (ti.set j (tij.set a (tija.set b true)))).getD i [] =
      ti.set j (tij.set a (tija.set b true)) := getD_set_self _ _ _ _ hilen
  by_cases hjj : j = j'
  case neg =>
    rw [if_neg (by tauto)]
    unfold tget
    rw [h0, getD_set_ne _ _ _ hjj, getD_of_getElem? _ hti]
  subst hjj
  have hjlen := lt_length_of_getElem? htij
  have h1 : (ti.set j (tij.set a (tija.set b true))).getD j [] =
      tij.set a (tija.set b true) := getD_set_self _ _ _ _ hjlen
  by_cases haa : a = a'
  case neg =>
    rw [if_neg (by tauto)]
    unfold tget
    rw [h0, h1, getD_set_ne _ _ _ haa, getD_of_getElem? _ hti,
      getD_of_getElem? _ htij]
  subst haa
  have halen := lt_length_of_getElem? htija
  have h2 : (tij.set a (tija.set b true)).getD a [] = tija.set b true :=
    getD_set_self _ _ _ _ halen
  by_cases hbb : b = b'
  case neg =>
    rw [if_neg (by tauto)]
    unfold tget
    rw [h0, h1, h2, getD_set_ne _ _ _ hbb, getD_of_getElem? _ hti,
      getD_of_getElem? _ htij, getD_of_getElem? _ htija]
  subst hbb
  rw [if_pos ⟨rfl, rfl, rfl, rfl⟩]
  unfold tget
  rw [h0, h1, h2, getD_set_self _ _ _ _ hb]

lemma applyEntry_some_of_inRange {t : Tensor} {n maxS : Nat}
    (hwf : wfTensor t n maxS) {e : CompatEntry}
    (he : entryInRange n maxS e) : ∃ t', applyEntry t e = some t' := by
  obtain ⟨h1, h2, h3, h4⟩ := he
  obtain ⟨t1, ht1⟩ := set4_isSome hwf h1 h2 h3 h4
  obtain ⟨t2, ht2⟩ := set4_isSome (wfTensor_set4 hwf ht1) h2 h1 h4 h3
  exact ⟨t2, by rw [applyEntry, ht1, Option.some_bind]; exact ht2⟩

lemma applyEntry_none_of_notInRange {t : Tensor} {n maxS : Nat}
    (hwf : wfTensor t n maxS) {e : CompatEntry}
    (he : ¬entryInRange n maxS e) : applyEntry t e = none := by
  rw [applyEntry, set4_none hwf (by unfold entryInRange at he; tauto)]
  rfl

lemma wfTensor_applyEntry {t t' : Tensor} {n maxS : Nat}
    (hwf : wfTensor t n maxS) {e : CompatEntry}
    (hs : applyEntry t e = some t') : wfTensor t' n maxS := by
  rw [applyEntry] at hs
  match h1 : set4 t e.set1 e.set2 e.idx1 e.idx2 with
  | none => rw [h1] at hs; simp at hs
  | some t1 =>
    rw [h1] at hs
    simp only [Option.some_bind] at hs
    exact wfTensor_set4 (wfTensor_set4 hwf h1) hs

lemma tget_applyEntry {t t' : Tensor} {e : CompatEntry}
    (hs : applyEntry t e = some t') (i j a b : Nat) :
    (tget t' i j a b = true ↔
      entryCovers e i j a b ∨ tget t i j a b = true) := by
  rw [applyEntry] at hs
  match h1 : set4 t e.set1 e.set2 e.idx1 e.idx2 with
  | none => rw [h1] at hs; simp at hs
  | some t1 =>
    rw [h1] at hs
    simp only [Option.some_bind] at hs
    rw [tget_set4 hs, tget_set4 h1]
    unfold entryCovers
    split_ifs with hc1 hc2 <;> simp <;> tauto

lemma buildLoop_crash_iff {n maxS : Nat} : ∀ (entries : List CompatEntry)
    (t : Tensor), wfTensor t n maxS →
    (buildLoop t entries = .crash ↔ ∃ e ∈ entries, ¬entryInRange n maxS e) := by
  intro entries
  induction entries with
  | nil =>
    intro t _
    simp [buildLoop]
  | cons e rest ih =>
    intro t hwf
    by_cases he : entryInRange n maxS e
    · obtain ⟨t1, ht1⟩ := applyEntry_some_of_inRange hwf he
      rw [buildLoop, ht1]
      rw [ih t1 (wfTensor_applyEntry hwf ht1)]
      constructor
      · rintro ⟨e2, he2, hbad⟩
        exact ⟨e2, List.mem_cons_of_mem e he2, hbad⟩
      · rintro ⟨e2, he2, hbad⟩
        rcases List.mem_cons.mp he2 with rfl | he3
        · exact absurd he hbad
        · exact ⟨e2, he3, hbad⟩
    · rw [buildLoop, applyEntry_none_of_notInRange hwf he]
      simp only [true_iff]
      exact ⟨e, List.mem_cons_self e rest, he⟩

lemma tget_init (n maxS i j a b : Nat) :
    tget (initTensor n maxS) i j a b = false := by
  unfold tget initTensor
  simp only [List.getD_eq_getElem?_getD, List.getElem?_replicate]
  split_ifs <;> simp [List.getD_eq_getElem?_getD, List.getElem?_replicate] <;>
    split_ifs <;> simp [List.getD_eq_getElem?_getD, List.getElem?_replicate] <;>
    split_ifs <;> simp [List.getD_eq_getElem?_getD, List.getElem?_replicate] <;>
    split_ifs <;> simp

lemma buildLoop_tget : ∀ (entries : List CompatEntry)
    (t0 t : Tensor), buildLoop t0 entries = .ok t →
    ∀ i j a b, (tget t i j a b = true ↔
      (∃ e ∈ entries, entryCovers e i j a b) ∨ tget t0 i j a b = true) := by
  intro entries
  induction entries with
  | nil =>
    intro t0 t hb i j a b
    rw [buildLoop] at hb
    injection hb with hb
    subst hb
    simp
  | cons e rest ih =>
    intro t0 t hb i j a b
    rw [buildLoop] at hb
    split at hb
    case h_2 => exact absurd hb (by simp)
    case h_1 t1 h1 =>
      rw [ih t1 t hb i j a b, tget_applyEntry h1]
      constructor
      · rintro (⟨e2, he2, hc⟩ | hc | ht)
        · exact Or.inl ⟨e2, List.mem_cons_of_mem e he2, hc⟩
        · exact Or.inl ⟨e, List.mem_cons_self e rest, hc⟩
        · exact Or.inr ht
      · rintro (⟨e2, he2, hc⟩ | ht)
        · rcases List.mem_cons.mp he2 with rfl | he3
          · exact Or.inr (Or.inl hc)
          · exact Or.inl ⟨e2, he3, hc⟩
        · exact Or.inr (Or.inr ht)

/-- C7 counterexample: an out-of-range entry does not surface a
construction error — the build crashes with a Rust index-out-of-bounds
panic (`BuildOutcome.crash`; the construction has no error channel at
all), and the writes of earlier in-range entries have already been applied
when it happens. -/
theorem build_reject_counterexample :
    buildCompatMap 2 2 [CompatEntry.mk 0 1 0 0, CompatEntry.mk 2 0 0 0] =
      BuildOutcome.crash ∧
    buildLoop (initTensor 2 2) [CompatEntry.mk 0 1 0 0] ≠
      BuildOutcome.ok (initTensor 2 2) := by
  constructor
  · rfl
  · decide

/-- C7 amended: tensor construction performs no validation at all; it
panics (index out of bounds, modelled by `crash`) exactly when some entry
references a position `≥ N` or an option index `≥` the maximum set
cardinality, rather than rejecting such entries with a surfaced
construction error before any tensor write; with all entries in range it
never crashes. -/
theorem build_crash_iff (n maxS : Nat) (entries : List CompatEntry) :
    buildCompatMap n maxS entries = BuildOutcome.crash ↔
      ∃ e ∈ entries, ¬entryInRange n maxS e :=
  buildLoop_crash_iff entries (initTensor n maxS) (wfTensor_init n maxS)

/-- C6: for every sequence of accepted (in-range) compatibility entries,
the built tensor holds `true` at both the direct cell of each entry and its
symmetric cell, and a cell is `true` exactly when some entry covers it
directly or by symmetry — no other cell is set. -/
theorem build_symmetric_minimal (n maxS : Nat) (entries : List CompatEntry)
    (t : Tensor) (hbuild : buildCompatMap n maxS entries = BuildOutcome.ok t) :
    (∀ e ∈ entries, tget t e.set1 e.set2 e.idx1 e.idx2 = true ∧
      tget t e.set2 e.set1 e.idx2 e.idx1 = true) ∧
    (∀ i j a b, tget t i j a b = true ↔ ∃ e ∈ entries, entryCovers e i j a b) := by
  have hmain : ∀ i j a b, tget t i j a b = true ↔
      ∃ e ∈ entries, entryCovers e i j a b := by
    intro i j a b
    rw [buildLoop_tget entries (initTensor n maxS) t hbuild i j a b,
      tget_init n maxS i j a b]
    simp
  refine ⟨?_, hmain⟩
  intro e he
  constructor
  · exact (hmain e.set1 e.set2 e.idx1 e.idx2).mpr
      ⟨e, he, Or.inl ⟨rfl, rfl, rfl, rfl⟩⟩
  · exact (hmain e.set2 e.set1 e.idx2 e.idx1).mpr
      ⟨e, he, Or.inr ⟨rfl, rfl, rfl, rfl⟩⟩

/-- The example entries of the spec's section-8 scenario: at positions 0
and 1 only option pairs `(0,0)` and `(1,1)` are compatible. -/
def entsEx : List CompatEntry :=
  [CompatEntry.mk 0 1 0 0, CompatEntry.mk 0 1 1 1]

/-- The example per-position cardinalities. -/
def SLEx : List Nat := [2, 2]

/-- The tensor built from `entsEx` over two positions of cardinality 2. -/
def tEx : Tensor :=
  [[[[false, false], [false, false]], [[true, false], [false, true]]],
   [[[true, false], [false, true]], [[false, false], [false, false]]]]

/-- Witness for the symmetry/minimality theorem on the concrete example
entries. -/
theorem build_symmetric_minimal_witness :
    buildCompatMap 2 2 entsEx = BuildOutcome.ok tEx ∧
    ((∀ e ∈ entsEx, tget tEx e.set1 e.set2 e.idx1 e.idx2 = true ∧
        tget tEx e.set2 e.set1 e.idx2 e.idx1 = true) ∧
      (∀ i j a b, tget tEx i j a b = true ↔
        ∃ e ∈ entsEx, entryCovers e i j a b)) :=
  ⟨by decide, build_symmetric_minimal 2 2 entsEx tEx (by decide)⟩

/-! Enumeration lemmas (claims C1 and C2). -/

lemma compatCheck_iff {t : Tensor} {d : Nat} {c : List Nat} {idx : Nat} :
    compatCheck t d c idx = true ↔
      ∀ p < d, tget t p d (c.getD p 0) idx = true := by
  simp [compatCheck, List.all_eq_true, List.mem_range]

lemma mem_recurseWriteAux (SL : List Nat) (t : Tensor) :
    ∀ (fuel d : Nat) (c c' : List Nat), c.length = d →
      (c' ∈ recurseWriteAux SL t fuel d c ↔
        (c'.length = d + fuel ∧ c'.take d = c ∧
          (∀ q, d ≤ q → q < d + fuel → c'.getD q 0 < SL.getD q 0) ∧
          (∀ q, d ≤ q → q < d + fuel → ∀ p, p < q →
            tget t p q (c'.getD p 0) (c'.getD q 0) = true))) := by
  intro fuel
  induction fuel with
  | zero =>
    intro d c c' hc
    simp only [recurseWriteAux, List.mem_singleton, Nat.add_zero]
    constructor
    · rintro rfl
      refine ⟨hc, ?_, fun q hq1 hq2 => absurd hq2 (by omega),
        fun q hq1 hq2 => absurd hq2 (by omega)⟩
      rw [← hc]
      exact List.take_length _
    · rintro ⟨hlen, htake, _, _⟩
      rw [← htake, ← hlen]
      exact (List.take_length c').symm
  | succ fuel ih =>
    intro d c c' hc
    simp only [recurseWriteAux, List.mem_flatMap, List.mem_range]
    constructor
    · rintro ⟨idx, hidx, hmem⟩
      by_cases hchk : compatCheck t d c idx
      case neg => rw [if_neg hchk] at hmem; simp at hmem
      rw [if_pos hchk] at hmem
      obtain ⟨hlen, htake, hbound, hcompat⟩ :=
        (ih (d + 1) (c ++ [idx]) c' (by simp [hc])).mp hmem
      have htaked : c'.take d = c := by
        have h1 : c'.take d = (c ++ [idx]).take d := by
          rw [← htake, List.take_take]
          congr 1
          omega
        rw [h1, List.take_left' hc]
      have hcd : c'.getD d 0 = idx := by
        have := getD_eq_of_take_eq 0 htake (by omega : d < d + 1)
        rw [this, ← hc, getD_concat_length]
      refine ⟨by omega, htaked, ?_, ?_⟩
      · intro q hq1 hq2
        rcases Nat.eq_or_lt_of_le hq1 with rfl | hq3
        · rw [hcd]; exact hidx
        · exact hbound q (by omega) (by omega)
      · intro q hq1 hq2 p hp
        rcases Nat.eq_or_lt_of_le hq1 with rfl | hq3
        · have hcp : c'.getD p 0 = c.getD p 0 :=
            getD_eq_of_take_eq 0 htaked hp
          rw [hcp, hcd]
          exact compatCheck_iff.mp hchk p hp
        · exact hcompat q (by omega) (by omega) p hp
    · rintro ⟨hlen, htake, hbound, hcompat⟩
      have hdlt : d < c'.length := by omega
      refine ⟨c'.getD d 0, hbound d (Nat.le_refl d) (by omega), ?_⟩
      have hchk : compatCheck t d c (c'.getD d 0) = true := by
        rw [compatCheck_iff]
        intro p hp
        have hcp : c.getD p 0 = c'.getD p 0 :=
          (getD_eq_of_take_eq 0 htake hp).symm
        rw [hcp]
        exact hcompat d (Nat.le_refl d) (by omega) p hp
      rw [if_pos hchk]
      apply (ih (d + 1) (c ++ [c'.getD d 0]) c' (by simp [hc])).mpr
      refine ⟨by omega, ?_, ?_, ?_⟩
      · rw [take_succ_getD c' d 0 hdlt, htake]
      · intro q hq1 hq2
        exact hbound q (by omega) (by omega)
      · intro q hq1 hq2 p hp
        exact hcompat q (by omega) (by omega) p hp

lemma nodup_recurseWriteAux (SL : List Nat) (t : Tensor) :
    ∀ (fuel d : Nat) (c : List Nat), c.length = d →
      (recurseWriteAux SL t fuel d c).Nodup := by
  intro fuel
  induction fuel with
  | zero =>
    intro d c hc
    simp [recurseWriteAux]
  | succ fuel ih =>
    intro d c hc
    simp only [recurseWriteAux]
    rw [List.nodup_flatMap]
    constructor
    · intro idx _
      by_cases hchk : compatCheck t d c idx
      · rw [if_pos hchk]
        exact ih (d + 1) (c ++ [idx]) (by simp [hc])
      · rw [if_neg hchk]
        exact List.nodup_nil
    · refine List.Pairwise.imp ?_ (List.pairwise_lt_range _)
      intro i1 i2 hlt
      simp only [Function.onFun]
      intro c' h1 h2
      by_cases hchk1 : compatCheck t d c i1
      case neg => rw [if_neg hchk1] at h1; simp at h1
      by_cases hchk2 : compatCheck t d c i2
      case neg => rw [if_neg hchk2] at h2; simp at h2
      rw [if_pos hchk1] at h1
      rw [if_pos hchk2] at h2
      obtain ⟨hlen1, htake1, _, _⟩ :=
        (mem_recurseWriteAux SL t fuel (d + 1) (c ++ [i1]) c'
          (by simp [hc])).mp h1
      obtain ⟨_, htake2, _, _⟩ :=
        (mem_recurseWriteAux SL t fuel (d + 1) (c ++ [i2]) c'
          (by simp [hc])).mp h2
      rw [htake1] at htake2
      have := List.append_inj_right htake2 rfl
      injection this with h
      omega

lemma mem_allCombos : ∀ (SL : List Nat) (c : List Nat),
    c ∈ allCombos SL ↔
      (c.length = SL.length ∧ ∀ p < SL.length, c.getD p 0 < SL.getD p 0) := by
  intro SL
  induction SL with
  | nil =>
    intro c
    simp [allCombos, List.length_eq_zero]
  | cons n rest ih =>
    intro c
    simp only [allCombos, List.mem_flatMap, List.mem_range, List.mem_map]
    constructor
    · rintro ⟨i, hi, c0, hc0, rfl⟩
      obtain ⟨hl, hb⟩ := (ih c0).mp hc0
      refine ⟨by simp [hl], ?_⟩
      intro p hp
      match p with
      | 0 => simpa using hi
      | p + 1 =>
        simp only [List.getD_cons_succ]
        exact hb p (by simpa using hp)
    · rintro ⟨hlen, hb⟩
      match c with
      | [] => simp at hlen
      | x :: c0 =>
        refine ⟨x, by simpa using hb 0 (by simp), c0,
          (ih c0).mpr ⟨by simpa using hlen, ?_⟩, rfl⟩
        intro p hp
        have := hb (p + 1) (by simpa using Nat.succ_lt_succ hp)
        simpa using this

lemma nodup_allCombos : ∀ SL : List Nat, (allCombos SL).Nodup := by
  intro SL
  induction SL with
  | nil => simp [allCombos]
  | cons n rest ih =>
    simp only [allCombos]
    rw [List.nodup_flatMap]
    constructor
    · intro i _
      exact ih.map List.cons_injective
    · refine List.Pairwise.imp ?_ (List.pairwise_lt_range _)
      intro i1 i2 hlt
      simp only [Function.onFun]
      intro c h1 h2
      obtain ⟨a1, _, rfl⟩ := List.mem_map.mp h1
      obtain ⟨a2, _, heq⟩ := List.mem_map.mp h2
      injection heq with h
      omega

lemma isValidCombo_iff (SL : List Nat) (t : Tensor) (c : List Nat) :
    isValidCombo SL t c = true ↔
      (c.length = SL.length ∧ (∀ p < c.length, c.getD p 0 < SL.getD p 0) ∧
        ∀ q < c.length, ∀ p < q, tget t p q (c.getD p 0) (c.getD q 0) = true) := by
  simp only [isValidCombo, List.all_eq_true, List.mem_range,
    Bool.and_eq_true, decide_eq_true_eq]
  tauto

lemma mem_emittedCombos {SL : List Nat} {t : Tensor} (hne : SL ≠ [])
    (c : List Nat) :
    c ∈ emittedCombos SL t ↔ isValidCombo SL t c = true := by
  have hN : 1 ≤ SL.length := List.length_pos.mpr hne
  rw [isValidCombo_iff]
  simp only [emittedCombos, List.mem_flatMap, List.mem_range]
  constructor
  · rintro ⟨first, hfirst, hmem⟩
    obtain ⟨hlen, htake, hbound, hcompat⟩ :=
      (mem_recurseWriteAux SL t (SL.length - 1) 1 [first] c rfl).mp hmem
    have hlen' : c.length = SL.length := by omega
    have hc0 : c.getD 0 0 = first := by
      have := getD_eq_of_take_eq 0 htake (by omega : (0 : Nat) < 1)
      simpa using this
    refine ⟨hlen', ?_, ?_⟩
    · intro p hp
      match p with
      | 0 => rw [hc0]; exact hfirst
      | p + 1 => exact hbound (p + 1) (by omega) (by omega)
    · intro q hq p hp
      exact hcompat q (by omega) (by omega) p hp
  · rintro ⟨hlen, hbound, hcompat⟩
    have h0lt : 0 < c.length := by omega
    refine ⟨c.getD 0 0, hbound 0 h0lt, ?_⟩
    apply (mem_recurseWriteAux SL t (SL.length - 1) 1 [c.getD 0 0] c rfl).mpr
    refine ⟨by omega, ?_, ?_, ?_⟩
    · have := take_succ_getD c 0 0 h0lt
      simpa using this
    · intro q hq1 hq2
      exact hbound q (by omega)
    · intro q hq1 hq2 p hp
      exact hcompat q (by omega) p hp

lemma nodup_emittedCombos (SL : List Nat) (t : Tensor) :
    (emittedCombos SL t).Nodup := by
  rw [emittedCombos, List.nodup_flatMap]
  constructor
  · intro first _
    exact nodup_recurseWriteAux SL t _ 1 [first] rfl
  · refine List.Pairwise.imp ?_ (List.pairwise_lt_range _)
    intro i1 i2 hlt
    simp only [Function.onFun]
    intro c h1 h2
    obtain ⟨_, htake1, _, _⟩ :=
      (mem_recurseWriteAux SL t _ 1 [i1] c rfl).mp h1
    obtain ⟨_, htake2, _, _⟩ :=
      (mem_recurseWriteAux SL t _ 1 [i2] c rfl).mp h2
    rw [htake1] at htake2
    injection htake2 with h
    omega

lemma backtrackAux_eq_recurseWriteAux (SL : List Nat) (t : Tensor) :
    ∀ (fuel d : Nat) (c : List Nat),
      backtrackAux SL t fuel d c = recurseWriteAux SL t fuel d c := by
  intro fuel
  induction fuel with
  | zero => intro d c; rfl
  | succ fuel ih =>
    intro d c
    simp only [backtrackAux, recurseWriteAux, ih]

lemma callbackCombos_eq (SL : List Nat) (t : Tensor) :
    callbackCombos SL t = emittedCombos SL t := by
  unfold callbackCombos emittedCombos
  congr 1
  funext first
  rw [backtrackAux_eq_recurseWriteAux]

/-- C1: every combination emitted by the file enumerator and every
callback invocation of the callback enumerator is pairwise compatible: for
each pair of positions `p < q < N`, the built tensor holds `true` at
`[p][q][combo[p]][combo[q]]` — no invalid combination is ever emitted. -/
theorem emitted_combos_pairwise_valid (entries : List CompatEntry)
    (SL : List Nat) (t : Tensor)
    (hbuild : buildCompatMap SL.length (maxSetSize SL) entries =
      BuildOutcome.ok t)
    (c : List Nat)
    (hc : c ∈ emittedCombos SL t ∨ c ∈ callbackCombos SL t) :
    ∀ p q, p < q → q < SL.length →
      tget t p q (c.getD p 0) (c.getD q 0) = true := by
  have hc' : c ∈ emittedCombos SL t := by
    rcases hc with h | h
    · exact h
    · rwa [callbackCombos_eq] at h
  intro p q hpq hq
  have hne : SL ≠ [] := by
    intro h
    rw [h] at hq
    simp at hq
  have hval := (mem_emittedCombos hne c).mp hc'
  rw [isValidCombo_iff] at hval
  obtain ⟨hlen, _, hcompat⟩ := hval
  exact hcompat q (by omega) p hpq

/-- Witness for the pairwise-validity theorem: the emitted combination
`[0,0]` of the concrete example is pairwise compatible. -/
theorem emitted_combos_pairwise_valid_witness :
    buildCompatMap SLEx.length (maxSetSize SLEx) entsEx =
        BuildOutcome.ok tEx ∧
    ([0, 0] ∈ emittedCombos SLEx tEx ∨ [0, 0] ∈ callbackCombos SLEx tEx) ∧
    (∀ p q, p < q → q < SLEx.length →
      tget tEx p q (([0, 0] : List Nat).getD p 0)
        (([0, 0] : List Nat).getD q 0) = true) :=
  ⟨by decide, Or.inl (by decide),
    emitted_combos_pairwise_valid entsEx SLEx tEx (by decide) [0, 0]
      (Or.inl (by decide))⟩

/-- C2: with at least one position, the enumeration is exhaustive and
duplicate-free: a combination is emitted exactly when it has one in-range
option per position and is pairwise compatible, each such combination is
emitted exactly once, and the emitted count equals the brute-force count
over all option sequences. -/
theorem enumeration_exhaustive (entries : List CompatEntry) (SL : List Nat)
    (t : Tensor) (hne : SL ≠ [])
    (hbuild : buildCompatMap SL.length (maxSetSize SL) entries =
      BuildOutcome.ok t) :
    (∀ c, c ∈ emittedCombos SL t ↔ isValidCombo SL t c = true) ∧
    (emittedCombos SL t).Nodup ∧
    (emittedCombos SL t).length = (bruteForceValid SL t).length := by
  refine ⟨fun c => mem_emittedCombos hne c, nodup_emittedCombos SL t, ?_⟩
  have hnd2 : (bruteForceValid SL t).Nodup :=
    (nodup_allCombos SL).filter _
  have hmem2 : ∀ c, c ∈ bruteForceValid SL t ↔ isValidCombo SL t c = true := by
    intro c
    rw [bruteForceValid, List.mem_filter]
    constructor
    · rintro ⟨_, h⟩
      exact h
    · intro h
      refine ⟨?_, h⟩
      rw [mem_allCombos]
      rw [isValidCombo_iff] at h
      obtain ⟨hlen, hb, _⟩ := h
      exact ⟨hlen, fun p hp => hb p (by omega)⟩
  have hperm : (emittedCombos SL t).Perm (bruteForceValid SL t) := by
    rw [List.perm_ext_iff_of_nodup (nodup_emittedCombos SL t) hnd2]
    intro c
    rw [mem_emittedCombos hne c, hmem2 c]
  exact hperm.length_eq

/-- Witness for the exhaustiveness theorem on the concrete example. -/
theorem enumeration_exhaustive_witness :
    SLEx ≠ [] ∧
    buildCompatMap SLEx.length (maxSetSize SLEx) entsEx =
      BuildOutcome.ok tEx ∧
    ((∀ c, c ∈ emittedCombos SLEx tEx ↔ isValidCombo SLEx tEx c = true) ∧
      (emittedCombos SLEx tEx).Nodup ∧
      (emittedCombos SLEx tEx).length = (bruteForceValid SLEx tEx).length) :=
  ⟨by decide, by decide,
    enumeration_exhaustive entsEx SLEx tEx (by decide) (by decide)⟩

/-- C3 counterexample: with `top_n = 0` and a single stored combination,
`score_combinations` hits `heap.peek().unwrap()` on the empty heap — a
panic, modelled as `none` — instead of returning the `min(0, 1) = 0`
entries the claim promises for every `K`. -/
theorem score_combinations_topn_zero_counterexample :
    score_combinations (ValidComboMatrix.mk 1 1 [0]) [[1]] 0 = none := by
  rfl

/-- C3 amended: provided `K = top_n ≥ 1`, `score_combinations` returns
exactly `min(K, n_combos)` scored combinations of distinct rows, ordered by
non-increasing mean score, each scored by `meanScore` (the sum of the
per-position table lookups divided by `N`); when `n_combos < K` every row
is returned, sorted.  (The claim as stated fails only at `K = 0`, where the
code panics instead of returning an empty result.) -/
theorem score_combinations_topk (m : ValidComboMatrix)
    (scores : List (List ℚ)) (top_n : Nat) (htop : 1 ≤ top_n) :
    ∃ r, score_combinations m scores top_n = some r ∧
      r.length = min top_n m.n_combos ∧
      List.Sorted (fun a b : ScoredCombo => b.score ≤ a.score) r ∧
      (∀ x ∈ r, x.index < m.n_combos ∧ x.score = meanScore m scores x.index) ∧
      (r.map ScoredCombo.index).Nodup ∧
      (m.n_combos < top_n → ∀ i < m.n_combos, ∃ x ∈ r, x.index = i) := by
  obtain ⟨h, hh, hs, hl, hmem, hnd⟩ :=
    heapAfter_inv m scores top_n htop m.n_combos
  refine ⟨h.reverse, ?_, ?_, ?_, ?_, ?_, ?_⟩
  · rw [score_combinations, hh]
    rfl
  · simpa using hl
  · rw [List.Sorted, List.pairwise_reverse]
    exact hs
  · intro x hx
    exact hmem x (List.mem_reverse.mp hx)
  · rw [List.map_reverse]
    exact List.nodup_reverse.mpr hnd
  · intro hdeg i hi
    have hli : (h.map ScoredCombo.index).length = m.n_combos := by
      rw [List.length_map, hl]
      omega
    have hin := mem_of_nodup_length (h.map ScoredCombo.index) m.n_combos hnd hli
      (by
        intro x hx
        obtain ⟨y, hy, hyx⟩ := List.mem_map.mp hx
        exact hyx ▸ (hmem y hy).1) i hi
    obtain ⟨y, hy, hyi⟩ := List.mem_map.mp hin
    exact ⟨y, List.mem_reverse.mpr hy, hyi⟩

/-- Concrete example store and tables (the scenario of spec section 8):
two positions of cardinality two, valid rows `[0,0]` and `[1,1]`. -/
def cmEx : ValidComboMatrix := ValidComboMatrix.mk 2 2 [0, 0, 1, 1]

/-- Score tables for the example: position 0 scores `[1, 5]`, position 1
scores `[2, 0]`. -/
def scEx : List (List ℚ) := [[1, 5], [2, 0]]

/-- Witness for the amended top-K theorem on the concrete example with
`K = 1`. -/
theorem score_combinations_topk_witness :
    1 ≤ 1 ∧
    ∃ r, score_combinations cmEx scEx 1 = some r ∧
      r.length = min 1 cmEx.n_combos ∧
      List.Sorted (fun a b : ScoredCombo => b.score ≤ a.score) r ∧
      (∀ x ∈ r, x.index < cmEx.n_combos ∧ x.score = meanScore cmEx scEx x.index) ∧
      (r.map ScoredCombo.index).Nodup ∧
      (cmEx.n_combos < 1 → ∀ i < cmEx.n_combos, ∃ x ∈ r, x.index = i) :=
  ⟨Nat.le_refl 1, score_combinations_topk cmEx scEx 1 (Nat.le_refl 1)⟩

/-- C10: the shared bounded heap never exceeds `top_n` entries at any
point of the scan, and a candidate row arriving when the heap is full is
kept only on a strictly greater mean score than the minimum held (the
`peek`ed head): on an exact tie the step returns the heap unchanged,
keeping the incumbent and discarding the candidate. -/
theorem topk_heap_bound_and_tiebreak (m : ValidComboMatrix)
    (scores : List (List ℚ)) (top_n : Nat) :
    (∀ k h, heapAfter m scores top_n k = some h → h.length ≤ top_n) ∧
    (∀ (m0 : ScoredCombo) (rest : List ScoredCombo) (i : Nat),
      (m0 :: rest).length = top_n → meanScore m scores i ≤ m0.score →
      topKStep m scores top_n (m0 :: rest) i = some (m0 :: rest)) := by
  refine ⟨heapAfter_length_le m scores top_n, ?_⟩
  intro m0 rest i hlen havg
  simp only [topKStep]
  rw [if_neg (by omega : ¬(m0 :: rest).length < top_n)]
  simp [not_lt.mpr havg]

/-- Witness for the heap-bound/tie-break theorem: the heap after two rows
with `K = 1` holds one entry, and an exact-tie candidate leaves a full
heap unchanged. -/
lemma meanScore_take (m : ValidComboMatrix) (scores : List (List ℚ))
    (i : Nat) : meanScore m (scores.take m.n_sets) i = meanScore m scores i := by
  unfold meanScore
  congr 2
  apply List.map_congr_left
  intro pr hpr
  have hlt : pr.1 < m.n_sets := by
    have h1 := List.fst_lt_of_mem_enum hpr
    have h2 : (m.get_combo i).length ≤ m.n_sets := by
      simpa [ValidComboMatrix.get_combo] using
        List.length_take_le m.n_sets (m.data.drop (i * m.n_sets))
    omega
  rw [List.getD_eq_getElem?_getD, List.getD_eq_getElem?_getD,
    List.getElem?_take_of_lt hlt]
  simp [List.getD_eq_getElem?_getD]

/-- C8 counterexample: `find_top_combos` called with two score tables but
`n_sets = 1` proceeds to score and returns a normal result, rather than
treating the table-count mismatch as a caller error. -/
theorem find_top_combos_mismatch_counterexample :
    find_top_combos [0] [[5], [7]] 1 1 1 = some [0] ∧
    ([[5], [7]] : List (List ℚ)).length ≠ 1 := by
  constructor
  · rfl
  · decide

/-- C8 amended: `find_top_combos` performs no check that the number of
score tables equals the position count `N = n_sets`; with at least `N`
tables supplied, any surplus tables are silently ignored (the result is
the same as with exactly the first `N` tables) and the call proceeds to
score and return a normal result. -/
theorem find_top_combos_no_mismatch_check (comboData : List Nat)
    (scoreTables : List (List ℚ)) (n_combos n_sets top_n : Nat)
    (hn : n_sets ≤ scoreTables.length) (htop : 1 ≤ top_n) :
    find_top_combos comboData scoreTables n_combos n_sets top_n =
      find_top_combos comboData (scoreTables.take n_sets) n_combos n_sets top_n ∧
    ∃ r, find_top_combos comboData scoreTables n_combos n_sets top_n = some r := by
  have hstep : topKStep (ValidComboMatrix.mk n_combos n_sets comboData)
        (scoreTables.take n_sets) top_n =
      topKStep (ValidComboMatrix.mk n_combos n_sets comboData)
        scoreTables top_n := by
    funext h i
    unfold topKStep
    rw [meanScore_take (ValidComboMatrix.mk n_combos n_sets comboData)
      scoreTables i]
  have hha : ∀ k, heapAfter (ValidComboMatrix.mk n_combos n_sets comboData)
        (scoreTables.take n_sets) top_n k =
      heapAfter (ValidComboMatrix.mk n_combos n_sets comboData)
        scoreTables top_n k := by
    intro k
    unfold heapAfter
    rw [hstep]
  constructor
  · simp only [find_top_combos, score_combinations]
    rw [hha]
  · obtain ⟨h, hh, _⟩ := heapAfter_inv
      (ValidComboMatrix.mk n_combos n_sets comboData) scoreTables top_n htop
      n_combos
    refine ⟨h.reverse.flatMap fun sc =>
      (ValidComboMatrix.mk n_combos n_sets comboData).get_combo sc.index, ?_⟩
    simp only [find_top_combos, score_combinations]
    rw [hh]
    rfl

/-- Witness for the no-mismatch-check theorem: one position, two tables. -/
theorem find_top_combos_no_mismatch_check_witness :
    (1 ≤ ([[5], [7]] : List (List ℚ)).length ∧ 1 ≤ 1) ∧
    (find_top_combos [0] [[5], [7]] 1 1 1 =
        find_top_combos [0] (([[5], [7]] : List (List ℚ)).take 1) 1 1 1 ∧
      ∃ r, find_top_combos [0] [[5], [7]] 1 1 1 = some r) :=
  ⟨⟨by decide, Nat.le_refl 1⟩,
    find_top_combos_no_mismatch_check [0] [[5], [7]] 1 1 1
      (by decide) (Nat.le_refl 1)⟩

theorem topk_heap_bound_and_tiebreak_witness :
    ([] : List ScoredCombo).length ≤ 1 ∧
    topKStep cmEx scEx 1 [ScoredCombo.mk ((3 : ℚ) / 2) 0] 0 =
      some [ScoredCombo.mk ((3 : ℚ) / 2) 0] :=
  ⟨(topk_heap_bound_and_tiebreak cmEx scEx 1).1 0 [] rfl,
    (topk_heap_bound_and_tiebreak cmEx scEx 1).2
      (ScoredCombo.mk ((3 : ℚ) / 2) 0) [] 0 rfl
      (by norm_num [meanScore, ValidComboMatrix.get_combo, cmEx, scEx,
        List.enum])⟩

end RiffDiff
